import Mathlib

/-!
Verification of the aggregation-and-digest pipeline of `vc_signal_bot.py`.

The Python source is shallowly embedded: dictionaries become structures or
association lists, datetimes become integer epoch seconds, the ISO-8601
parser and the mail transport are parameters (they are external boundaries),
and Python string operations (`lower`, `strip`, truthiness, lexicographic
comparison by code point) are modelled on the underlying character lists.
-/

namespace VCBot

/-- Python `str.lower()` (per-character lowering). -/
def pyLower (s : String) : String := String.mk (s.data.map Char.toLower)

/-- Drop leading and trailing whitespace from a character list. -/
def trimChars (l : List Char) : List Char :=
  ((l.dropWhile Char.isWhitespace).reverse.dropWhile Char.isWhitespace).reverse

/-- Python `str.strip()`. -/
def pyStrip (s : String) : String := String.mk (trimChars s.data)

/-- Lexicographic comparison of character lists by code point, as Python
compares strings. -/
def charsLe : List Char → List Char → Bool
  | [], _ => true
  | _ :: _, [] => false
  | a :: as, b :: bs =>
    if a.toNat = b.toNat then charsLe as bs
    else decide (a.toNat < b.toNat)

/-- Python string `<=`. -/
def strLe (a b : String) : Bool := charsLe a.data b.data

/-- `strLe` as a relation. -/
def strLeP (a b : String) : Prop := strLe a b = true

instance : DecidableRel strLeP := fun a b => by
  unfold strLeP; infer_instance

/-- Python truthiness of an optional string: `None` and `""` are falsy. -/
def strTruthy : Option String → Bool
  | none => false
  | some s => decide (s ≠ "")

/-- `SCORE_WEIGHTS["vc_hit"]`. -/
def W_vc_hit : Nat := 10
/-- `SCORE_WEIGHTS["multi_vc"]`. -/
def W_multi_vc : Nat := 8
/-- `SCORE_WEIGHTS["has_link"]`. -/
def W_has_link : Nat := 1
/-- `SCORE_WEIGHTS["coingecko_presence"]`. -/
def W_coingecko : Nat := 2

/-- `score_project` from the source: base weight when any corroborating
source exists, the multi-VC bonus when there are at least two, a link
bonus when the url is truthy, and the presence bonus when `has_cg`. -/
def score_project (_name : String) (url : Option String) (tags : List String)
    (has_cg : Bool) : Nat :=
  let score := 0
  let score := if tags ≠ [] then
      (let score := score + W_vc_hit
       if 2 ≤ tags.length then score + W_multi_vc else score)
    else score
  let score := if strTruthy url then score + W_has_link else score
  if has_cg then score + W_coingecko else score

/-- One entry of the persisted `pending_signals` list. -/
structure PendingItem where
  name : String
  url : Option String
  tags : List String
  score : Nat
  ts : Option String
deriving DecidableEq

/-- The persisted state: the `"vc_signals"` list under `seen_items`, the
pending digest queue, and the `last_digest_sent` timestamp string. -/
structure BotState where
  seen_vc : List String
  pending_signals : List PendingItem
  last_digest_sent : Option String
deriving DecidableEq

/-- `sorted(set(l))` on strings, as used in the queue merge. -/
def sorted_set (l : List String) : List String :=
  (l.dedup).insertionSort strLeP

/-- The dedup identity used by `queue_signal`: `name.lower().strip()`. -/
def pkey (s : String) : String := pyStrip (pyLower s)

/-- `queue_signal`: merge into the first pending item with the same
case-insensitive trimmed name (union tags, keep a truthy url, max score),
otherwise append the signal stamped with the current local time. -/
def queue_signal (now : String) (pending : List PendingItem) (sig : PendingItem) :
    List PendingItem :=
  match pending with
  | [] => [{ sig with ts := some now }]
  | s :: rest =>
    if pkey s.name = pkey sig.name then
      { s with
        tags := sorted_set (s.tags ++ sig.tags)
        url := if ¬ strTruthy s.url ∧ strTruthy sig.url then sig.url else s.url
        score := max s.score sig.score } :: rest
    else s :: queue_signal now rest sig

/-- `should_send_digest`: no pending means not due; a missing or falsy
`last_digest_sent` means due; an unparseable timestamp means due; otherwise
due when at least `intervalHours` hours have elapsed. -/
def should_send_digest (parseIso : String → Option Int) (now : Int)
    (intervalHours : Int) (st : BotState) : Bool :=
  if st.pending_signals = [] then false
  else
    match st.last_digest_sent with
    | none => true
    | some last =>
      if last = "" then true
      else
        match parseIso last with
        | none => true
        | some lastT => decide (intervalHours * 3600 ≤ now - lastT)

/-- `send_digest_if_due`: when due, attempt delivery (`emailOk` is the
transport boundary result); on success advance `last_digest_sent` and clear
the queue, on failure leave the state untouched. -/
def send_digest_if_due (parseIso : String → Option Int) (now : Int)
    (nowStr : String) (intervalHours : Int) (emailOk : Bool) (st : BotState) :
    BotState :=
  if should_send_digest parseIso now intervalHours st then
    if emailOk then
      { st with last_digest_sent := some nowStr, pending_signals := [] }
    else st
  else st

/-- Fuelled decimal-digit extraction (the fuel strictly exceeds the
number, so it never runs out). -/
def natDigitsF : Nat → Nat → List Nat
  | 0, _ => []
  | fuel + 1, n => if n < 10 then [n] else natDigitsF fuel (n / 10) ++ [n % 10]

/-- The decimal digits of a natural number, most significant first. -/
def natDigits (n : Nat) : List Nat := natDigitsF (n + 1) n

/-- The value of a most-significant-first decimal digit list. -/
def digitsVal (ds : List Nat) : Nat := ds.foldl (fun a d => 10 * a + d) 0

/-- Decimal rendering of a natural number, as Python renders an `int`
inside an f-string. -/
def natRepr (n : Nat) : String := String.mk ((natDigits n).map Nat.digitChar)

/-- The dedup-ledger bucket key `f"{name_lc}:{score}"`. -/
def mkBucket (name_lc : String) (score : Nat) : String :=
  name_lc ++ ":" ++ natRepr score

/-- One value of the run-scoped `vc_hits` dictionary: latest display casing
and the `source name -> url` map. -/
structure Entry where
  display : String
  sources : List (String × String)
deriving DecidableEq

/-- Python dict assignment `m[k] = v` on an association list: replace the
value at an existing key in place, otherwise append the binding. -/
def insertAssoc (m : List (String × String)) (k v : String) :
    List (String × String) :=
  match m with
  | [] => [(k, v)]
  | (k', v') :: rest =>
    if k' = k then (k', v) :: rest else (k', v') :: insertAssoc rest k v

/-- One candidate merged into `vc_hits`: `setdefault` on the lowered name,
overwrite the display casing, and set the url for that source. -/
def addCandidate (hits : List (String × Entry)) (srcName nm link : String) :
    List (String × Entry) :=
  match hits with
  | [] => [(pyLower nm, { display := nm, sources := [(srcName, link)] })]
  | (k, e) :: rest =>
    if k = pyLower nm then
      (k, { display := nm, sources := insertAssoc e.sources srcName link }) :: rest
    else (k, e) :: addCandidate rest srcName nm link

/-- The fetch results of one run: for each source, its display name and its
parsed `(project name, url)` candidates. -/
abbrev Run := List (String × List (String × String))

/-- The identity-merge phase of `main`: fold the candidates of every source
into the `vc_hits` map. -/
def build_hits (run : Run) : List (String × Entry) :=
  run.foldl (fun hits src => src.2.foldl
    (fun h c => addCandidate h src.1 c.1 c.2) hits) []

/-- `tags = list(source_map.keys())`. -/
def entry_tags (e : Entry) : List String := e.sources.map Prod.fst

/-- `first_link = next(iter(source_map.values()))` (or `None` if empty). -/
def entry_first_link (e : Entry) : Option String := e.sources.head?.map Prod.snd

/-- The score `main` computes for one `vc_hits` entry. -/
def entry_score (cg : List String) (k : String) (e : Entry) : Nat :=
  score_project e.display (entry_first_link e) (entry_tags e) (cg.contains k)

/-- The signal dictionary `main` passes to `queue_signal`. -/
def entry_signal (cg : List String) (k : String) (e : Entry) : PendingItem :=
  { name := e.display, url := entry_first_link e, tags := entry_tags e,
    score := entry_score cg k e, ts := none }

/-- One iteration of the signal loop in `main`: skip when multi-VC
corroboration is required but missing, otherwise score, apply the
threshold, and let new bucket keys through the dedup-ledger gate into the
digest queue. -/
def processEntry (rm : Bool) (thr : Nat) (cg : List String) (now : String)
    (st : BotState) (kv : String × Entry) : BotState :=
  if rm = true ∧ (entry_tags kv.2).length < 2 then st
  else if thr ≤ entry_score cg kv.1 kv.2 then
    if mkBucket kv.1 (entry_score cg kv.1 kv.2) ∈ st.seen_vc then st
    else
      { st with
        seen_vc := st.seen_vc ++ [mkBucket kv.1 (entry_score cg kv.1 kv.2)]
        pending_signals := queue_signal now st.pending_signals
          (entry_signal cg kv.1 kv.2) }
  else st

/-- The whole signal loop of `main` over the `vc_hits` entries. -/
def run_signals (rm : Bool) (thr : Nat) (cg : List String) (now : String)
    (st : BotState) (entries : List (String × Entry)) : BotState :=
  entries.foldl (processEntry rm thr cg now) st

/-- The within-source dedup loop of `generic_portfolio_parser`, with its
`seen` set of lowered names. -/
def dedupGo : List (String × String) → List String → List (String × String)
  | [], _ => []
  | (nm, link) :: rest, seen =>
    if pyLower nm ∈ seen then dedupGo rest seen
    else (nm, link) :: dedupGo rest (pyLower nm :: seen)

/-- The deduplication by case-insensitive name that `generic_portfolio_parser`
applies to the candidate list of a single source. -/
def dedup_by_name (items : List (String × String)) : List (String × String) :=
  dedupGo items []

/-- One run over the `VC_SOURCES` registry (source display names in
registry order): only Wintermute and Pantera return a candidate. -/
def sample_run : Run :=
  [("Binance Labs Portfolio", []), ("a16z Crypto Portfolio", []),
   ("Wintermute Investments", [("Zeta", "https://zeta.example/w")]),
   ("Pantera Capital Portfolio", [("Zeta", "https://zeta.example/p")]),
   ("Multicoin Capital Portfolio", []), ("Polychain Capital Portfolio", []),
   ("Paradigm Portfolio", []), ("Dragonfly Portfolio", []),
   ("Jump Crypto Portfolio", []), ("Electric Capital Portfolio", []),
   ("Hashed Portfolio", []), ("Framework Ventures Portfolio", []),
   ("Animoca Brands Investments", []), ("OKX Ventures Portfolio", [])]

/-- Modelled from the score formula of the spec (base 10 for one corroborating
source, +8 for at least two, +1 for a url, +2 for an enabled auxiliary
presence match), to be compared with `score_project`. -/
def spec_score (numSources : Nat) (hasUrl : Bool) (auxMatch : Bool) : Nat :=
  (if 1 ≤ numSources then 10 else 0) + (if 2 ≤ numSources then 8 else 0) +
  (if hasUrl then 1 else 0) + (if auxMatch then 2 else 0)

end VCBot

namespace VCBot

/-- C2: the flush advances `last_digest_sent` and clears `pending_signals`
exactly when the transport reports success; a failed delivery leaves the
state equal to its pre-flush value. -/
theorem c2_flush_iff_success (parseIso : String → Option Int) (now : Int)
    (nowStr : String) (W : Int) (ok : Bool) (st : BotState)
    (hdue : should_send_digest parseIso now W st = true) :
    (ok = true → send_digest_if_due parseIso now nowStr W ok st =
      { st with pending_signals := [], last_digest_sent := some nowStr }) ∧
    (ok = false → send_digest_if_due parseIso now nowStr W ok st = st) := by
  constructor <;> (intro h; simp [send_digest_if_due, hdue, h])

theorem c2_flush_iff_success_witness :
    send_digest_if_due (fun _ => none) 0 "T1" 4 false
      { seen_vc := [], pending_signals := [⟨"A", none, [], 0, none⟩],
        last_digest_sent := none } =
      { seen_vc := [], pending_signals := [⟨"A", none, [], 0, none⟩],
        last_digest_sent := none } :=
  (c2_flush_iff_success (fun _ => none) 0 "T1" 4 false
    { seen_vc := [], pending_signals := [⟨"A", none, [], 0, none⟩],
      last_digest_sent := none } (by decide)).2 rfl

/-- C3: the digest is due exactly when the pending list is non-empty and
either no prior flush is recorded or the window has elapsed; with last
flush `T` and window `W` hours, the due predicate is false one second
before `T + W` hours and true at exactly `T + W` hours. -/
theorem c3_digest_due (parseIso : String → Option Int) (W now T : Int)
    (st : BotState) :
    ((st.last_digest_sent = none ∨ st.last_digest_sent = some "") →
      (should_send_digest parseIso now W st = true ↔ st.pending_signals ≠ [])) ∧
    (∀ s : String, st.last_digest_sent = some s → s ≠ "" → parseIso s = some T →
      (should_send_digest parseIso now W st = true ↔
        st.pending_signals ≠ [] ∧ W * 3600 ≤ now - T)) ∧
    (∀ s : String, st.pending_signals ≠ [] → st.last_digest_sent = some s →
      s ≠ "" → parseIso s = some T →
      should_send_digest parseIso (T + W * 3600 - 1) W st = false ∧
      should_send_digest parseIso (T + W * 3600) W st = true) := by
  refine ⟨?_, ?_, ?_⟩
  · intro h
    by_cases hp : st.pending_signals = []
    · simp [should_send_digest, hp]
    · rcases h with h | h <;> simp [should_send_digest, hp, h]
  · intro s hs hne hp
    by_cases hpend : st.pending_signals = []
    · simp [should_send_digest, hpend]
    · simp [should_send_digest, hpend, hs, hne, hp]
  · intro s hpend hs hne hp
    constructor
    · simp [should_send_digest, hpend, hs, hne, hp]
      omega
    · simp [should_send_digest, hpend, hs, hne, hp]

theorem c3_digest_due_witness :
    should_send_digest (fun _ => some 100) (100 + 4 * 3600 - 1) 4
      { seen_vc := [], pending_signals := [⟨"A", none, [], 0, none⟩],
        last_digest_sent := some "x" } = false ∧
    should_send_digest (fun _ => some 100) (100 + 4 * 3600) 4
      { seen_vc := [], pending_signals := [⟨"A", none, [], 0, none⟩],
        last_digest_sent := some "x" } = true :=
  (c3_digest_due (fun _ => some 100) 4 0 100
    { seen_vc := [], pending_signals := [⟨"A", none, [], 0, none⟩],
      last_digest_sent := some "x" }).2.2 "x" (by decide) rfl (by decide) rfl

/-- C10: with a non-empty pending list, a present but unparseable
`last_digest_sent` timestamp makes the digest due immediately. -/
theorem c10_corrupt_timestamp_due (parseIso : String → Option Int) (now W : Int)
    (st : BotState) (s : String) (hpend : st.pending_signals ≠ [])
    (hlast : st.last_digest_sent = some s) (hparse : parseIso s = none) :
    should_send_digest parseIso now W st = true := by
  by_cases hne : s = ""
  · simp [should_send_digest, hpend, hlast, hne]
  · simp [should_send_digest, hpend, hlast, hne, hparse]

theorem c10_corrupt_timestamp_due_witness :
    should_send_digest (fun _ => none) 0 4
      { seen_vc := [], pending_signals := [⟨"A", none, [], 0, none⟩],
        last_digest_sent := some "not-a-timestamp" } = true :=
  c10_corrupt_timestamp_due (fun _ => none) 0 4
    { seen_vc := [], pending_signals := [⟨"A", none, [], 0, none⟩],
      last_digest_sent := some "not-a-timestamp" } "not-a-timestamp"
    (by decide) rfl rfl

/-- C5: the computed score matches the additive formula of the spec (10 for a
corroborating source, +8 for at least two, +1 for a present url, +2 for an
enabled auxiliary match), and two corroborating sources with a url and no
auxiliary match score 19. -/
theorem c5_score_formula :
    (∀ (name : String) (url : Option String) (tags : List String) (cgb : Bool),
      url ≠ some "" →
      score_project name url tags cgb = spec_score tags.length url.isSome cgb) ∧
    score_project "Zeta" (some "https://zeta.example") ["A", "B"] false = 19 := by
  constructor
  · intro name url tags cgb hne
    have hu : strTruthy url = url.isSome := by
      rcases url with _ | s
      · simp [strTruthy]
      · have hs : s ≠ "" := fun h => hne (by rw [h])
        simp [strTruthy, hs]
    rcases tags with _ | ⟨t, ts⟩
    · cases cgb <;> cases hh : url.isSome <;>
        simp [score_project, spec_score, hu, hh, W_vc_hit, W_multi_vc,
          W_has_link, W_coingecko]
    · by_cases h2 : 1 ≤ ts.length <;>
        cases cgb <;> cases hh : url.isSome <;>
        simp [score_project, spec_score, hu, hh, h2, W_vc_hit, W_multi_vc,
          W_has_link, W_coingecko]
  · decide

theorem c5_score_formula_witness :
    score_project "Zeta" (some "https://zeta.example") ["A", "B"] false =
      spec_score 2 true false :=
  c5_score_formula.1 "Zeta" (some "https://zeta.example") ["A", "B"] false
    (by decide)

lemma charsLe_total : ∀ a b : List Char, charsLe a b = true ∨ charsLe b a = true := by
  intro a
  induction a with
  | nil => intro b; left; rfl
  | cons x xs ih =>
    intro b
    cases b with
    | nil => right; rfl
    | cons y ys =>
      simp only [charsLe]
      by_cases h1 : x.toNat = y.toNat
      · rcases ih ys with h | h
        · left; rw [if_pos h1]; exact h
        · right; rw [if_pos h1.symm]; exact h
      · by_cases h2 : x.toNat < y.toNat
        · left; rw [if_neg h1]; exact decide_eq_true h2
        · right
          rw [if_neg (fun h => h1 h.symm)]
          exact decide_eq_true (by omega)

lemma charsLe_trans : ∀ a b c : List Char, charsLe a b = true →
    charsLe b c = true → charsLe a c = true := by
  intro a
  induction a with
  | nil => intro b c _ _; rfl
  | cons x xs ih =>
    intro b c hab hbc
    cases b with
    | nil => simp [charsLe] at hab
    | cons y ys =>
      cases c with
      | nil => simp [charsLe] at hbc
      | cons z zs =>
        simp only [charsLe] at hab hbc ⊢
        by_cases h1 : x.toNat = y.toNat
        · rw [if_pos h1] at hab
          by_cases h2 : y.toNat = z.toNat
          · rw [if_pos h2] at hbc
            rw [if_pos (h1.trans h2)]
            exact ih ys zs hab hbc
          · rw [if_neg h2] at hbc
            have hyz := of_decide_eq_true hbc
            rw [if_neg (by omega)]
            exact decide_eq_true (by omega)
        · rw [if_neg h1] at hab
          have hxy := of_decide_eq_true hab
          by_cases h2 : y.toNat = z.toNat
          · rw [if_neg (by omega)]
            exact decide_eq_true (by omega)
          · rw [if_neg h2] at hbc
            have hyz := of_decide_eq_true hbc
            rw [if_neg (by omega)]
            exact decide_eq_true (by omega)

lemma sorted_set_sorted (l : List String) : (sorted_set l).Sorted strLeP := by
  haveI : IsTotal String strLeP := ⟨fun a b => charsLe_total a.data b.data⟩
  haveI : IsTrans String strLeP := ⟨fun a b c => charsLe_trans a.data b.data c.data⟩
  exact List.sorted_insertionSort strLeP l.dedup

lemma sorted_set_nodup (l : List String) : (sorted_set l).Nodup :=
  ((List.perm_insertionSort strLeP l.dedup).nodup_iff).2 (List.nodup_dedup l)

lemma mem_sorted_set {a : String} {l : List String} :
    a ∈ sorted_set l ↔ a ∈ l := by
  unfold sorted_set
  rw [(List.perm_insertionSort strLeP l.dedup).mem_iff, List.mem_dedup]

/-- C4: queuing a signal whose case-insensitive trimmed name matches a
pending item merges in place (tags become the sorted union, a truthy
existing url is kept and an absent one is replaced by a truthy new one,
the score becomes the maximum); with no match the signal is appended,
stamped with the current local time. -/
theorem c4_queue_merge :
    (∀ (now : String) (pre post : List PendingItem) (s sig : PendingItem),
      (∀ p ∈ pre, pkey p.name ≠ pkey sig.name) → pkey s.name = pkey sig.name →
      ∃ m : PendingItem,
        queue_signal now (pre ++ s :: post) sig = pre ++ m :: post ∧
        m.tags.Sorted strLeP ∧ m.tags.Nodup ∧
        (∀ a, a ∈ m.tags ↔ a ∈ s.tags ∨ a ∈ sig.tags) ∧
        (strTruthy s.url = true → m.url = s.url) ∧
        (strTruthy s.url = false → strTruthy sig.url = true → m.url = sig.url) ∧
        m.score = max s.score sig.score ∧ m.name = s.name ∧ m.ts = s.ts) ∧
    (∀ (now : String) (pending : List PendingItem) (sig : PendingItem),
      (∀ p ∈ pending, pkey p.name ≠ pkey sig.name) →
      queue_signal now pending sig = pending ++ [{ sig with ts := some now }]) := by
  constructor
  · intro now pre post s sig hpre hs
    induction pre with
    | nil =>
      refine ⟨{ s with
          tags := sorted_set (s.tags ++ sig.tags)
          url := if ¬ strTruthy s.url ∧ strTruthy sig.url then sig.url else s.url
          score := max s.score sig.score },
        ?_, sorted_set_sorted _, sorted_set_nodup _, ?_, ?_, ?_, rfl, rfl, rfl⟩
      · simp [queue_signal, hs]
      · intro a
        rw [mem_sorted_set, List.mem_append]
      · intro ht
        simp [ht]
      · intro hf ht
        simp [hf, ht]
    | cons p pre' ih =>
      have hp : pkey p.name ≠ pkey sig.name := hpre p (by simp)
      obtain ⟨m, hm, rest⟩ := ih (fun q hq => hpre q (by simp [hq]))
      refine ⟨m, ?_, rest⟩
      simp only [List.cons_append, queue_signal, if_neg hp]
      exact congrArg (List.cons p) hm
  · intro now pending sig hnone
    induction pending with
    | nil => simp [queue_signal]
    | cons p rest ih =>
      have hp : pkey p.name ≠ pkey sig.name := hnone p (by simp)
      simp only [queue_signal, if_neg hp, List.cons_append]
      rw [ih (fun q hq => hnone q (by simp [hq]))]

theorem c4_queue_merge_witness :
    queue_signal "t1" [⟨"Bar", none, ["A"], 8, some "t0"⟩]
      ⟨"foo", some "u", ["B"], 9, none⟩ =
      [⟨"Bar", none, ["A"], 8, some "t0"⟩, ⟨"foo", some "u", ["B"], 9, some "t1"⟩] :=
  c4_queue_merge.2 "t1" [⟨"Bar", none, ["A"], 8, some "t0"⟩]
    ⟨"foo", some "u", ["B"], 9, none⟩ (by decide)

lemma dedupGo_filter (n : String) : ∀ (items : List (String × String))
    (seen : List String),
    (dedupGo items seen).filter (fun p => pyLower p.1 == n) =
      if n ∈ seen then [] else (items.find? (fun p => pyLower p.1 == n)).toList := by
  intro items
  induction items with
  | nil => intro seen; by_cases h : n ∈ seen <;> simp [dedupGo, h]
  | cons p rest ih =>
    intro seen
    obtain ⟨nm, link⟩ := p
    by_cases hmem : pyLower nm ∈ seen
    · simp only [dedupGo, if_pos hmem]
      rw [ih seen]
      by_cases hkey : pyLower nm = n
      · have hn : n ∈ seen := hkey ▸ hmem
        simp [hn]
      · by_cases hn : n ∈ seen <;> simp [hn, hkey]
    · simp only [dedupGo, if_neg hmem]
      rw [List.filter_cons, List.find?_cons, ih (pyLower nm :: seen)]
      by_cases hkey : pyLower nm = n
      · have hn : n ∉ seen := hkey ▸ hmem
        simp [hkey, hn]
      · have hb : (pyLower nm == n) = false := by simp [hkey]
        by_cases hn : n ∈ seen <;> simp [hkey, Ne.symm hkey, hb, hn]

/-- C7 counterexample: two same-name entries within one source keep the
first-seen url `u1`, not the last-seen `u2`. -/
theorem c7_counterexample :
    dedup_by_name [("Foo", "u1"), ("foo", "u2")] = [("Foo", "u1")] ∧
      "u1" ≠ "u2" := by decide

/-- C7 amended: within-source deduplication keeps exactly one entry per
case-insensitive name, namely the first-seen duplicate (its casing and
url), not the last-seen one. -/
theorem c7_first_seen_kept : ∀ (items : List (String × String)) (n : String),
    (dedup_by_name items).filter (fun p => pyLower p.1 == n) =
      (items.find? (fun p => pyLower p.1 == n)).toList := by
  intro items n
  simpa [dedup_by_name] using dedupGo_filter n items []

lemma insertAssoc_keys (m : List (String × String)) (k v : String) :
    (insertAssoc m k v).map Prod.fst =
      if k ∈ m.map Prod.fst then m.map Prod.fst else m.map Prod.fst ++ [k] := by
  induction m with
  | nil => simp [insertAssoc]
  | cons p rest ih =>
    obtain ⟨k', v'⟩ := p
    by_cases h : k' = k
    · simp [insertAssoc, h]
    · have hne : ¬ k = k' := fun hh => h hh.symm
      by_cases h2 : k ∈ rest.map Prod.fst <;>
        simp [insertAssoc, h, ih, h2, hne]

lemma insertAssoc_keys_nodup {m : List (String × String)} (k v : String)
    (h : (m.map Prod.fst).Nodup) : ((insertAssoc m k v).map Prod.fst).Nodup := by
  rw [insertAssoc_keys]
  by_cases h2 : k ∈ m.map Prod.fst
  · simpa [h2] using h
  · rw [if_neg h2]
    exact ((List.perm_append_singleton k (m.map Prod.fst)).nodup_iff).2
      (by simp [h2, h])

lemma insertAssoc_keys_sub {m : List (String × String)} {k v : String} :
    ∀ sn ∈ (insertAssoc m k v).map Prod.fst, sn ∈ m.map Prod.fst ∨ sn = k := by
  intro sn hs
  rw [insertAssoc_keys] at hs
  by_cases h2 : k ∈ m.map Prod.fst
  · rw [if_pos h2] at hs; exact Or.inl hs
  · rw [if_neg h2] at hs
    rcases List.mem_append.1 hs with h | h
    · exact Or.inl h
    · exact Or.inr (by simpa using h)

lemma insertAssoc_idem (m : List (String × String)) (k v : String) :
    insertAssoc (insertAssoc m k v) k v = insertAssoc m k v := by
  induction m with
  | nil => simp [insertAssoc]
  | cons p rest ih =>
    obtain ⟨k', v'⟩ := p
    by_cases h : k' = k <;> simp [insertAssoc, h, ih]

lemma addCandidate_cases {hits : List (String × Entry)} {srcName nm link k : String}
    {e : Entry} (hm : (k, e) ∈ addCandidate hits srcName nm link) :
    (k, e) ∈ hits ∨
    (∃ e0 : Entry, (k, e0) ∈ hits ∧ k = pyLower nm ∧
      e.sources = insertAssoc e0.sources srcName link) ∨
    (k = pyLower nm ∧ e.sources = [(srcName, link)]) := by
  induction hits with
  | nil =>
    right; right
    simp [addCandidate] at hm
    exact ⟨hm.1, by rw [hm.2]⟩
  | cons p rest ih =>
    obtain ⟨k0, e0⟩ := p
    simp only [addCandidate] at hm
    by_cases hk : k0 = pyLower nm
    · rw [if_pos hk] at hm
      rcases List.mem_cons.1 hm with h1 | h1
      · rw [Prod.mk.injEq] at h1
        obtain ⟨hk1, he1⟩ := h1
        subst hk1
        right; left
        refine ⟨e0, List.mem_cons_self _ _, hk, ?_⟩
        rw [he1]
      · exact Or.inl (List.mem_cons_of_mem _ h1)
    · rw [if_neg hk] at hm
      rcases List.mem_cons.1 hm with h1 | h1
      · exact Or.inl (by rw [h1]; exact List.mem_cons_self _ _)
      · rcases ih h1 with h2 | ⟨e1, he1, hk1, hs1⟩ | h2
        · exact Or.inl (List.mem_cons_of_mem _ h2)
        · exact Or.inr (Or.inl ⟨e1, List.mem_cons_of_mem _ he1, hk1, hs1⟩)
        · exact Or.inr (Or.inr h2)

lemma addCandidate_keys_nodup {hits : List (String × Entry)}
    {srcName nm link : String}
    (h : ∀ k e, (k, e) ∈ hits → (e.sources.map Prod.fst).Nodup) :
    ∀ k e, (k, e) ∈ addCandidate hits srcName nm link →
      (e.sources.map Prod.fst).Nodup := by
  intro k e hm
  rcases addCandidate_cases hm with h1 | ⟨e0, he0, _, hs⟩ | ⟨_, hs⟩
  · exact h k e h1
  · rw [hs]; exact insertAssoc_keys_nodup _ _ (h k e0 he0)
  · rw [hs]; simp

lemma addCandidate_prov {P : String → String → Prop}
    {hits : List (String × Entry)} {srcName nm link : String}
    (h : ∀ k e, (k, e) ∈ hits → ∀ sn ∈ e.sources.map Prod.fst, P k sn)
    (hnew : P (pyLower nm) srcName) :
    ∀ k e, (k, e) ∈ addCandidate hits srcName nm link →
      ∀ sn ∈ e.sources.map Prod.fst, P k sn := by
  intro k e hm sn hs
  rcases addCandidate_cases hm with h1 | ⟨e0, he0, hk, hsrc⟩ | ⟨hk, hsrc⟩
  · exact h k e h1 sn hs
  · rw [hsrc] at hs
    rcases insertAssoc_keys_sub sn hs with h2 | h2
    · exact h k e0 he0 sn h2
    · rw [h2, hk]; exact hnew
  · rw [hsrc] at hs
    have : sn = srcName := by simpa using hs
    rw [this, hk]; exact hnew

lemma foldl_addCandidate_keys_nodup {srcName : String} :
    ∀ (cands : List (String × String)) (hits : List (String × Entry)),
      (∀ k e, (k, e) ∈ hits → (e.sources.map Prod.fst).Nodup) →
      ∀ k e, (k, e) ∈ cands.foldl
        (fun h c => addCandidate h srcName c.1 c.2) hits →
        (e.sources.map Prod.fst).Nodup := by
  intro cands
  induction cands with
  | nil => intro hits h; exact h
  | cons c cs ih =>
    intro hits h
    exact ih _ (addCandidate_keys_nodup h)

lemma foldl_addCandidate_prov {P : String → String → Prop} {srcName : String} :
    ∀ (cands : List (String × String)) (hits : List (String × Entry)),
      (∀ c ∈ cands, P (pyLower c.1) srcName) →
      (∀ k e, (k, e) ∈ hits → ∀ sn ∈ e.sources.map Prod.fst, P k sn) →
      ∀ k e, (k, e) ∈ cands.foldl
        (fun h c => addCandidate h srcName c.1 c.2) hits →
        ∀ sn ∈ e.sources.map Prod.fst, P k sn := by
  intro cands
  induction cands with
  | nil => intro hits _ h; exact h
  | cons c cs ih =>
    intro hits hc h
    exact ih _ (fun c' hc' => hc c' (List.mem_cons_of_mem _ hc'))
      (addCandidate_prov h (hc c (List.mem_cons_self _ _)))

lemma build_hits_keys_nodup (run : Run) :
    ∀ k e, (k, e) ∈ build_hits run → (e.sources.map Prod.fst).Nodup := by
  have aux : ∀ (l : Run) (hits : List (String × Entry)),
      (∀ k e, (k, e) ∈ hits → (e.sources.map Prod.fst).Nodup) →
      ∀ k e, (k, e) ∈ l.foldl (fun hits src => src.2.foldl
        (fun h c => addCandidate h src.1 c.1 c.2) hits) hits →
        (e.sources.map Prod.fst).Nodup := by
    intro l
    induction l with
    | nil => intro hits h; exact h
    | cons src l' ih =>
      intro hits h
      exact ih _ (foldl_addCandidate_keys_nodup src.2 hits h)
  exact aux run [] (by simp)

lemma build_hits_prov (run : Run) :
    ∀ k e, (k, e) ∈ build_hits run → ∀ sn ∈ e.sources.map Prod.fst,
      ∃ src ∈ run, src.1 = sn ∧ ∃ c ∈ src.2, pyLower c.1 = k := by
  have aux : ∀ (l : Run) (hits : List (String × Entry)),
      (∀ src ∈ l, src ∈ run) →
      (∀ k e, (k, e) ∈ hits → ∀ sn ∈ e.sources.map Prod.fst,
        ∃ src ∈ run, src.1 = sn ∧ ∃ c ∈ src.2, pyLower c.1 = k) →
      ∀ k e, (k, e) ∈ l.foldl (fun hits src => src.2.foldl
        (fun h c => addCandidate h src.1 c.1 c.2) hits) hits →
        ∀ sn ∈ e.sources.map Prod.fst,
          ∃ src ∈ run, src.1 = sn ∧ ∃ c ∈ src.2, pyLower c.1 = k := by
    intro l
    induction l with
    | nil => intro hits _ h; exact h
    | cons src l' ih =>
      intro hits hsub h
      refine ih _ (fun s hs => hsub s (List.mem_cons_of_mem _ hs)) ?_
      refine foldl_addCandidate_prov src.2 hits ?_ h
      intro c hc
      exact ⟨src, hsub src (List.mem_cons_self _ _), rfl, c, hc, rfl⟩
  exact aux run [] (fun _ hs => hs) (by simp)

/-- C9: the source-map of every project record has at most one url per
distinct source name (its key list is duplicate-free), and re-merging the
same candidate of the same source into a source-map is idempotent. -/
theorem c9_source_map_nodup_idem :
    (∀ (run : Run) (k : String) (e : Entry), (k, e) ∈ build_hits run →
      (e.sources.map Prod.fst).Nodup) ∧
    (∀ (m : List (String × String)) (k v : String),
      insertAssoc (insertAssoc m k v) k v = insertAssoc m k v) :=
  ⟨fun run => build_hits_keys_nodup run, insertAssoc_idem⟩

theorem c9_source_map_nodup_idem_witness :
    ((Entry.mk "zeta" [("A", "u1"), ("B", "u2")]).sources.map Prod.fst).Nodup :=
  c9_source_map_nodup_idem.1 [("A", [("Zeta", "u1")]), ("B", [("zeta", "u2")])]
    "zeta" (Entry.mk "zeta" [("A", "u1"), ("B", "u2")]) (by decide)

lemma eq_of_countP_eq_one {α : Type _} (p : α → Bool) {l : List α}
    (h : l.countP p = 1) {a b : α} (ha : a ∈ l) (hpa : p a = true)
    (hb : b ∈ l) (hpb : p b = true) : a = b := by
  rw [List.countP_eq_length_filter] at h
  obtain ⟨x, hx⟩ := List.length_eq_one.1 h
  have ha' := List.mem_filter.2 ⟨ha, hpa⟩
  have hb' := List.mem_filter.2 ⟨hb, hpb⟩
  rw [hx] at ha' hb'
  have h1 : a = x := by simpa using ha'
  have h2 : b = x := by simpa using hb'
  rw [h1, h2]

lemma length_le_one_of_nodup_const {α : Type _} : ∀ {l : List α}, l.Nodup →
    (∀ a ∈ l, ∀ b ∈ l, a = b) → l.length ≤ 1
  | [], _, _ => by simp
  | [_], _, _ => by simp
  | a :: b :: rest, hn, h => by
    have hab := h a (by simp) b (by simp)
    rcases List.nodup_cons.1 hn with ⟨hna, _⟩
    exact absurd (show a ∈ b :: rest by rw [hab]; exact List.mem_cons_self _ _) hna

lemma foldl_filter_of_identity {α β : Type _} (f : β → α → β) (p : α → Bool) :
    ∀ (l : List α) (st : β), (∀ x ∈ l, p x = false → ∀ s, f s x = s) →
      l.foldl f st = (l.filter p).foldl f st := by
  intro l
  induction l with
  | nil => intro st _; rfl
  | cons x xs ih =>
    intro st h
    by_cases hx : p x = true
    · rw [List.foldl_cons, List.filter_cons_of_pos hx, List.foldl_cons]
      exact ih (f st x) (fun y hy => h y (List.mem_cons_of_mem _ hy))
    · have hx' : p x = false := by simpa using hx
      rw [List.foldl_cons, h x (List.mem_cons_self _ _) hx',
        List.filter_cons_of_neg (by simp [hx'])]
      exact ih st (fun y hy => h y (List.mem_cons_of_mem _ hy))

/-- C6: with multi-VC corroboration required (the default), a project that
appears in the candidate list of exactly one source is filtered before scoring:
processing its record leaves any state unchanged (nothing is queued and no
bucket is recorded), and the whole signal sweep equals the sweep with that
record removed. -/
theorem c6_single_source_suppressed (run : Run) (n : String) (thr : Nat)
    (cg : List String) (now : String) (st : BotState)
    (hcount : run.countP (fun src => src.2.any (fun c => pyLower c.1 == n)) = 1) :
    (∀ e : Entry, (n, e) ∈ build_hits run →
      ∀ st' : BotState, processEntry true thr cg now st' (n, e) = st') ∧
    run_signals true thr cg now st (build_hits run) =
      run_signals true thr cg now st
        ((build_hits run).filter (fun kv => !(kv.1 == n))) := by
  have hnoop : ∀ e : Entry, (n, e) ∈ build_hits run →
      ∀ st' : BotState, processEntry true thr cg now st' (n, e) = st' := by
    intro e hm st'
    have hlen : (entry_tags e).length ≤ 1 := by
      apply length_le_one_of_nodup_const (build_hits_keys_nodup run n e hm)
      intro a ha b hb
      obtain ⟨srcA, hsA, hA1, cA, hcA, hkA⟩ := build_hits_prov run n e hm a ha
      obtain ⟨srcB, hsB, hB1, cB, hcB, hkB⟩ := build_hits_prov run n e hm b hb
      have hpA : (fun src : String × List (String × String) =>
          src.2.any (fun c => pyLower c.1 == n)) srcA = true := by
        simp only [List.any_eq_true]
        exact ⟨cA, hcA, by simp [hkA]⟩
      have hpB : (fun src : String × List (String × String) =>
          src.2.any (fun c => pyLower c.1 == n)) srcB = true := by
        simp only [List.any_eq_true]
        exact ⟨cB, hcB, by simp [hkB]⟩
      have hAB := eq_of_countP_eq_one _ hcount hsA hpA hsB hpB
      rw [← hA1, ← hB1, hAB]
    have hlt : (entry_tags e).length < 2 := by omega
    simp [processEntry, hlt]
  refine ⟨hnoop, ?_⟩
  simp only [run_signals]
  apply foldl_filter_of_identity
  intro kv hkv hfalse s
  obtain ⟨k1, e1⟩ := kv
  have hk : k1 = n := by simpa using hfalse
  subst hk
  exact hnoop e1 hkv s

theorem c6_single_source_suppressed_witness :
    processEntry true 8 [] "t" ⟨[], [], none⟩
      ("solo", ⟨"Solo", [("A", "u")]⟩) = ⟨[], [], none⟩ :=
  (c6_single_source_suppressed [("A", [("Solo", "u")]), ("B", [])] "solo" 8 []
    "t" ⟨[], [], none⟩ (by decide)).1 ⟨"Solo", [("A", "u")]⟩ (by decide)
    ⟨[], [], none⟩

/-- C8 counterexample: over the registry, a project corroborated by
Wintermute (processed third) and Pantera (processed fourth) is first
queued with tags in source-processing order, and that order is not
ascending. -/
theorem c8_counterexample :
    (run_signals true 8 [] "t" ⟨[], [], none⟩
        (build_hits sample_run)).pending_signals =
      [⟨"Zeta", some "https://zeta.example/w",
        ["Wintermute Investments", "Pantera Capital Portfolio"], 19, some "t"⟩] ∧
    ¬ ["Wintermute Investments", "Pantera Capital Portfolio"].Sorted strLeP := by
  constructor
  · decide
  · intro hs
    have h := (List.sorted_cons.1 hs).1 "Pantera Capital Portfolio" (by simp)
    exact absurd h (by decide)

/-- C8 amended: after a queue merge the tags of the merged item are sorted and
duplicate-free, and any signal the pipeline queues has duplicate-free tags
(the distinct source names of the record); but a first-queued signal keeps its
tags in source-processing order, which need not be sorted. -/
theorem c8_tags_sorted_nodup (now : String) (pending : List PendingItem)
    (sig : PendingItem) (cg : List String) (run : Run) :
    (∀ it ∈ queue_signal now pending sig,
      it ∈ pending ∨ it.tags = sig.tags ∨
        (it.tags.Sorted strLeP ∧ it.tags.Nodup)) ∧
    (∀ (k : String) (e : Entry), (k, e) ∈ build_hits run →
      (entry_signal cg k e).tags.Nodup) := by
  constructor
  · induction pending with
    | nil =>
      intro it hit
      simp [queue_signal] at hit
      right; left; rw [hit]
    | cons s rest ih =>
      intro it hit
      rw [queue_signal] at hit
      by_cases hk : pkey s.name = pkey sig.name
      · rw [if_pos hk] at hit
        rcases List.mem_cons.1 hit with h1 | h1
        · right; right
          rw [h1]
          exact ⟨sorted_set_sorted _, sorted_set_nodup _⟩
        · left; exact List.mem_cons_of_mem _ h1
      · rw [if_neg hk] at hit
        rcases List.mem_cons.1 hit with h1 | h1
        · left; rw [h1]; exact List.mem_cons_self _ _
        · rcases ih it h1 with h2 | h2
          · left; exact List.mem_cons_of_mem _ h2
          · right; exact h2
  · intro k e hm
    exact build_hits_keys_nodup run k e hm

theorem c8_tags_sorted_nodup_witness :
    (entry_signal [] "zeta" ⟨"zeta", [("A", "u1"), ("B", "u2")]⟩).tags.Nodup :=
  (c8_tags_sorted_nodup "t" [] ⟨"", none, [], 0, none⟩ []
    [("A", [("Zeta", "u1")]), ("B", [("zeta", "u2")])]).2 "zeta"
    ⟨"zeta", [("A", "u1"), ("B", "u2")]⟩ (by decide)

lemma digitsVal_append_digit (l : List Nat) (d : Nat) :
    digitsVal (l ++ [d]) = 10 * digitsVal l + d := by
  simp [digitsVal, List.foldl_append]

lemma digitsVal_natDigitsF : ∀ fuel n : Nat, n < fuel →
    digitsVal (natDigitsF fuel n) = n := by
  intro fuel
  induction fuel with
  | zero => intro n h; omega
  | succ f ih =>
    intro n h
    rw [natDigitsF]
    by_cases h10 : n < 10
    · rw [if_pos h10]; simp [digitsVal]
    · rw [if_neg h10, digitsVal_append_digit, ih (n / 10) (by omega)]
      omega

lemma natDigits_inj {a b : Nat} (h : natDigits a = natDigits b) : a = b := by
  have ha := digitsVal_natDigitsF (a + 1) a (by omega)
  have hb := digitsVal_natDigitsF (b + 1) b (by omega)
  rw [natDigits] at h
  rw [← ha, ← hb, h]
  rfl

lemma natDigitsF_lt_ten : ∀ fuel n : Nat, n < fuel →
    ∀ d ∈ natDigitsF fuel n, d < 10 := by
  intro fuel
  induction fuel with
  | zero => intro n h; omega
  | succ f ih =>
    intro n h d hd
    rw [natDigitsF] at hd
    by_cases h10 : n < 10
    · rw [if_pos h10] at hd
      have : d = n := by simpa using hd
      omega
    · rw [if_neg h10] at hd
      rcases List.mem_append.1 hd with h1 | h1
      · exact ih (n / 10) (by omega) d h1
      · have : d = n % 10 := by simpa using h1
        omega

lemma digitChar_inj_lt : ∀ a : Nat, a < 10 → ∀ b : Nat, b < 10 →
    Nat.digitChar a = Nat.digitChar b → a = b := by decide

lemma map_digitChar_inj : ∀ l1 l2 : List Nat, (∀ d ∈ l1, d < 10) →
    (∀ d ∈ l2, d < 10) → l1.map Nat.digitChar = l2.map Nat.digitChar →
    l1 = l2 := by
  intro l1
  induction l1 with
  | nil =>
    intro l2 _ _ h
    cases l2 with
    | nil => rfl
    | cons d' ds' => simp at h
  | cons d ds ih =>
    intro l2 h1 h2 h
    cases l2 with
    | nil => simp at h
    | cons d' ds' =>
      simp only [List.map_cons, List.cons.injEq] at h
      have hd := digitChar_inj_lt d (h1 d (by simp)) d' (h2 d' (by simp)) h.1
      rw [hd, ih ds' (fun x hx => h1 x (by simp [hx]))
        (fun x hx => h2 x (by simp [hx])) h.2]

lemma natRepr_inj {a b : Nat} (h : natRepr a = natRepr b) : a = b := by
  have h2 : (natDigits a).map Nat.digitChar = (natDigits b).map Nat.digitChar :=
    congrArg String.data h
  exact natDigits_inj (map_digitChar_inj _ _
    (natDigitsF_lt_ten (a + 1) a (by omega))
    (natDigitsF_lt_ten (b + 1) b (by omega)) h2)

lemma mkBucket_inj_score {n : String} {a b : Nat}
    (h : mkBucket n a = mkBucket n b) : a = b := by
  have hd := congrArg String.data h
  simp only [mkBucket, String.data_append] at hd
  have hdata := List.append_cancel_left hd
  exact natRepr_inj (congrArg String.mk hdata)

lemma mkBucket_ne {n : String} {a b : Nat} (h : a ≠ b) :
    mkBucket n a ≠ mkBucket n b :=
  fun he => h (mkBucket_inj_score he)

lemma processEntry_skip (rm : Bool) (thr : Nat) (cg : List String)
    (now : String) (st : BotState) (n : String) (e : Entry)
    (hf : rm = true ∧ (entry_tags e).length < 2) :
    processEntry rm thr cg now st (n, e) = st := by
  simp only [processEntry]
  rw [if_pos hf]

lemma processEntry_below (rm : Bool) (thr : Nat) (cg : List String)
    (now : String) (st : BotState) (n : String) (e : Entry)
    (hf : ¬ (rm = true ∧ (entry_tags e).length < 2))
    (hs : ¬ thr ≤ entry_score cg n e) :
    processEntry rm thr cg now st (n, e) = st := by
  simp only [processEntry]
  rw [if_neg hf, if_neg hs]

lemma processEntry_suppressed (rm : Bool) (thr : Nat) (cg : List String)
    (now : String) (st : BotState) (n : String) (e : Entry)
    (hf : ¬ (rm = true ∧ (entry_tags e).length < 2))
    (hs : thr ≤ entry_score cg n e)
    (hm : mkBucket n (entry_score cg n e) ∈ st.seen_vc) :
    processEntry rm thr cg now st (n, e) = st := by
  simp only [processEntry]
  rw [if_neg hf, if_pos hs, if_pos hm]

lemma processEntry_queued (rm : Bool) (thr : Nat) (cg : List String)
    (now : String) (st : BotState) (n : String) (e : Entry)
    (hf : ¬ (rm = true ∧ (entry_tags e).length < 2))
    (hs : thr ≤ entry_score cg n e)
    (hm : mkBucket n (entry_score cg n e) ∉ st.seen_vc) :
    processEntry rm thr cg now st (n, e) =
      { st with
        seen_vc := st.seen_vc ++ [mkBucket n (entry_score cg n e)]
        pending_signals := queue_signal now st.pending_signals
          (entry_signal cg n e) } := by
  simp only [processEntry]
  rw [if_neg hf, if_pos hs, if_neg hm]

/-- C1: the dedup-ledger gate. A qualifying signal whose bucket key
`normalized_name:score` is already in the ledger is suppressed leaving the
state unchanged; a fresh bucket key is recorded and the signal queued
exactly once; reprocessing the same record is a no-op (one queuing ever);
and the same name at a strictly higher score has a distinct bucket key, so
it is recorded and queued again. -/
theorem c1_dedup_gate (rm : Bool) (thr : Nat) (cg : List String)
    (now now2 : String) (st : BotState) (n : String) (e e' : Entry) :
    (¬ (rm = true ∧ (entry_tags e).length < 2) → thr ≤ entry_score cg n e →
      mkBucket n (entry_score cg n e) ∈ st.seen_vc →
      processEntry rm thr cg now st (n, e) = st) ∧
    (¬ (rm = true ∧ (entry_tags e).length < 2) → thr ≤ entry_score cg n e →
      mkBucket n (entry_score cg n e) ∉ st.seen_vc →
      processEntry rm thr cg now st (n, e) =
        { st with
          seen_vc := st.seen_vc ++ [mkBucket n (entry_score cg n e)]
          pending_signals := queue_signal now st.pending_signals
            (entry_signal cg n e) }) ∧
    (processEntry rm thr cg now2 (processEntry rm thr cg now st (n, e)) (n, e) =
      processEntry rm thr cg now st (n, e)) ∧
    (¬ (rm = true ∧ (entry_tags e).length < 2) → thr ≤ entry_score cg n e →
      ¬ (rm = true ∧ (entry_tags e').length < 2) → thr ≤ entry_score cg n e' →
      entry_score cg n e < entry_score cg n e' →
      mkBucket n (entry_score cg n e') ∉ st.seen_vc →
      processEntry rm thr cg now2 (processEntry rm thr cg now st (n, e)) (n, e') =
        { processEntry rm thr cg now st (n, e) with
          seen_vc := (processEntry rm thr cg now st (n, e)).seen_vc ++
            [mkBucket n (entry_score cg n e')]
          pending_signals := queue_signal now2
            (processEntry rm thr cg now st (n, e)).pending_signals
            (entry_signal cg n e') }) := by
  refine ⟨processEntry_suppressed rm thr cg now st n e,
    processEntry_queued rm thr cg now st n e, ?_, ?_⟩
  · by_cases hf : rm = true ∧ (entry_tags e).length < 2
    · rw [processEntry_skip rm thr cg now st n e hf,
        processEntry_skip rm thr cg now2 st n e hf]
    · by_cases hs : thr ≤ entry_score cg n e
      · by_cases hm : mkBucket n (entry_score cg n e) ∈ st.seen_vc
        · rw [processEntry_suppressed rm thr cg now st n e hf hs hm,
            processEntry_suppressed rm thr cg now2 st n e hf hs hm]
        · rw [processEntry_queued rm thr cg now st n e hf hs hm]
          exact processEntry_suppressed rm thr cg now2 _ n e hf hs (by simp)
      · rw [processEntry_below rm thr cg now st n e hf hs,
          processEntry_below rm thr cg now2 st n e hf hs]
  · intro hf hs hf' hs' hlt hm'
    by_cases hm : mkBucket n (entry_score cg n e) ∈ st.seen_vc
    · rw [processEntry_suppressed rm thr cg now st n e hf hs hm]
      exact processEntry_queued rm thr cg now2 st n e' hf' hs' hm'
    · rw [processEntry_queued rm thr cg now st n e hf hs hm]
      refine processEntry_queued rm thr cg now2 _ n e' hf' hs' ?_
      intro hmem
      rcases List.mem_append.1 hmem with h1 | h1
      · exact hm' h1
      · have h2 : mkBucket n (entry_score cg n e') = mkBucket n (entry_score cg n e) := by
          simpa using h1
        exact mkBucket_ne (Nat.ne_of_gt hlt) h2

theorem c1_dedup_gate_witness :
    processEntry true 8 [] "t" ⟨[], [], none⟩
      ("zeta", ⟨"Zeta", [("A", "u1"), ("B", "u2")]⟩) =
      ⟨["zeta:19"], [⟨"Zeta", some "u1", ["A", "B"], 19, some "t"⟩], none⟩ := by
  rw [(c1_dedup_gate true 8 [] "t" "t2" ⟨[], [], none⟩ "zeta"
    ⟨"Zeta", [("A", "u1"), ("B", "u2")]⟩ ⟨"Zeta", []⟩).2.1 (by decide)
    (by decide) (by decide)]
  decide

end VCBot
